import Mathlib

/-!
Verification of the chimera_conf configuration-resolution library.

The development shallowly embeds the Python sources:
  * `src/chimera_conf/utilities.py`    (namespace `Chimera.utilities`)
  * `src/chimera_conf/chimera_conf.py` (namespace `Chimera.chimera_conf`)
  * `src/chimera_conf/chimera_form.py` (namespace `Chimera.ChimeraForm`)
  * `src/chimera_conf/config_builder.py` (namespace `Chimera.config_builder`)

Parsed YAML documents are modelled by the inductive `Val`; Python dicts are
association lists (`Entries`) preserving insertion order, with the usual
Python-dict invariant (no duplicate keys) stated as a hypothesis where a
theorem needs it.  The file-system / parser capability that `_load_yaml`
consults is a parameter (`FS`); a separate heap model at the end of the
definitions captures the object identity needed to reason about mutation.
-/

namespace Chimera

/-- A parsed YAML value: scalars, sequences, and nested mappings.
Mirrors the values `yaml.safe_load` can place inside a dict. -/
inductive Val where
  | vstr (s : String)
  | vint (n : Int)
  | vbool (b : Bool)
  | vnull
  | vseq (elems : List Val)
  | vmap (entries : List (String × Val))

/-- A Python dict of parsed config data: insertion-ordered key/value pairs. -/
abbrev Entries := List (String × Val)

/-- `isinstance(v, dict)` on a parsed value. -/
def isMap : Val → Bool
  | Val.vmap _ => true
  | _ => false

/-- The key list of a dict, in insertion order. -/
def keys (m : Entries) : List String := m.map Prod.fst

/-- `d[k]` lookup on a dict (first matching key). -/
def lookupVal : Entries → String → Option Val
  | [], _ => none
  | (k', v) :: rest, k => if k' = k then some v else lookupVal rest k

/-- `d[k] = v` assignment on a dict: replaces the value at an existing key in
place (keeping its position), otherwise appends the new pair at the end. -/
def setKey : Entries → String → Val → Entries
  | [], k, v => [(k, v)]
  | (k', v') :: rest, k, v =>
      if k' = k then (k, v) :: rest else (k', v') :: setKey rest k v

namespace utilities

/-- Embedding of `_merge_dicts` from `utilities.py`: start from a copy of the
base dictionary, walk the overlay items in order; when the key is present on
both sides and both values are dicts, recurse, otherwise the overlay value
replaces the existing one; keys new to the accumulator are appended. -/
def merge_dicts (merged : Entries) : Entries → Entries
  | [] => merged
  | (overlay_key, Val.vmap om) :: rest =>
    (match lookupVal merged overlay_key with
     | some (Val.vmap bm) =>
         merge_dicts (setKey merged overlay_key (Val.vmap (merge_dicts bm om))) rest
     | some _ =>
         merge_dicts (setKey merged overlay_key (Val.vmap om)) rest
     | none =>
         merge_dicts (merged ++ [(overlay_key, Val.vmap om)]) rest)
  | (overlay_key, overlay_value) :: rest =>
    (match lookupVal merged overlay_key with
     | some _ => merge_dicts (setKey merged overlay_key overlay_value) rest
     | none => merge_dicts (merged ++ [(overlay_key, overlay_value)]) rest)
termination_by o => sizeOf o

/-- The value stored for one overlay key, given the value currently present
in the accumulator (if any): recursive merge when both sides are dicts,
whole-value replacement otherwise. -/
def combineVals : Option Val → Val → Val
  | some (Val.vmap bm), Val.vmap om => Val.vmap (merge_dicts bm om)
  | _, o => o

/-- One iteration of the `_merge_dicts` loop: write `v` at `k`, replacing in
place when the key exists, appending otherwise. -/
def mergeStep (merged : Entries) (k : String) (v : Val) : Entries :=
  match lookupVal merged k with
  | some _ => setKey merged k v
  | none => merged ++ [(k, v)]

/-- Embedding of `_merge_all_dicts`: `reduce(_merge_dicts, dicts, {})`, the
left fold of `_merge_dicts` over the list starting from the empty dict. -/
def merge_all_dicts (dicts : List Entries) : Entries :=
  dicts.foldl merge_dicts []

end utilities

mutual

/-- A parsed value is well formed when every mapping nested anywhere inside it
has Python-dict keys (no duplicates). Every value produced by `yaml.safe_load`
satisfies this. -/
def valWF : Val → Bool
  | Val.vseq elems => listValWF elems
  | Val.vmap entries => entriesWF entries
  | _ => true

/-- All values in a list are well formed. -/
def listValWF : List Val → Bool
  | [] => true
  | v :: rest => valWF v && listValWF rest

/-- A dict is well formed when its keys are distinct and its values are well
formed. -/
def entriesWF : List (String × Val) → Bool
  | [] => true
  | (k, v) :: rest => decide (k ∉ keys rest) && valWF v && entriesWF rest

end

/-- Navigation along a path of keys through nested mappings: `getPath v []`
is `v` itself, and `getPath v (k :: p)` descends into the mapping value at
key `k` (failing when `v` is not a mapping or does not bind `k`). -/
def getPath : Val → List String → Option Val
  | v, [] => some v
  | v, k :: rest =>
    (match v with
     | Val.vmap m =>
       (match lookupVal m k with
        | some w => getPath w rest
        | none => none)
     | _ => none)

/-- Python `str.split(".")` on the characters of a string: splits at every
dot, keeping empty pieces; always returns at least one piece. -/
def splitOnDot : List Char → List (List Char)
  | [] => [[]]
  | c :: rest =>
    if c = '.' then [] :: splitOnDot rest
    else
      (match splitOnDot rest with
       | [] => [[c]]
       | g :: gs => (c :: g) :: gs)

/-- Python `".".join(parts)`. -/
def joinDots : List String → String
  | [] => ""
  | [p] => p
  | p :: rest => p ++ "." ++ joinDots rest

namespace utilities

/-- The per-path computation inside the `_add_config_set_files` loop: split
the path on `.`, take the last piece as the extension, and join the remaining
pieces, the config-set name, and the extension back together with dots. -/
def overlay_file (config_file : String) (config_set : String) : String :=
  let file_parts : List String := (splitOnDot config_file.data).map String.mk
  let file_extension := file_parts.getLastD ""
  let remainder_of_file_path := file_parts.dropLast
  joinDots (remainder_of_file_path ++ [config_set] ++ [file_extension])

/-- Embedding of `_add_config_set_files`: the original list followed by the
derived environment (overlay) path of each entry, in order. -/
def add_config_set_files (config_files : List String) (config_set : String) :
    List String :=
  let environment_config_files := config_files.map (fun f => overlay_file f config_set)
  config_files ++ environment_config_files

end utilities

/-- The observable state of one logical config file, as seen through
`importlib.resources` plus `yaml.safe_load`: the file may be absent
(`FileNotFoundError`), or present with parsed content (`none` when
`yaml.safe_load` returns `None` for empty content). Any other read or parse
failure raises and aborts the whole call without further logic, so it is
outside the model. -/
inductive FileState where
  | absent
  | present (parsed : Option Entries)

/-- The external file-resolution capability, keyed the way `_load_yaml` keys
it: by package path and file name. -/
abbrev FS := String → String → FileState

/-- Helper for Python `str.replace` with a non-empty pattern `c0 :: old'`:
replace non-overlapping occurrences left to right. -/
def pyReplaceNE (c0 : Char) (old' new : List Char) : List Char → List Char
  | [] => []
  | c :: rest =>
    if (c0 :: old').isPrefixOf (c :: rest) then
      new ++ pyReplaceNE c0 old' new ((c :: rest).drop (c0 :: old').length)
    else c :: pyReplaceNE c0 old' new rest
termination_by s => s.length
decreasing_by
  · simp only [List.length_drop, List.length_cons]
    omega
  · simp only [List.length_cons]
    omega

/-- Python `str.replace(old, new)` on character lists: replace non-overlapping
occurrences left to right; with an empty `old`, Python inserts `new` before
every character and once at the end. -/
def pyReplace (old new s : List Char) : List Char :=
  match old with
  | [] => new ++ (s.map (fun c => c :: new)).flatten
  | c0 :: old' => pyReplaceNE c0 old' new s

/-- Split a character list just after its last slash (Python
`p[:i], p[i:]` with `i = p.rfind('/') + 1`). -/
def splitAtLastSlash : List Char → List Char × List Char
  | [] => ([], [])
  | c :: rest =>
    if rest.contains '/' then
      ((c :: (splitAtLastSlash rest).1), (splitAtLastSlash rest).2)
    else if c = '/' then ([c], rest)
    else ([], c :: rest)

/-- Strip trailing slashes. -/
def rstripSlash (cs : List Char) : List Char :=
  (cs.reverse.dropWhile (fun c => c == '/')).reverse

/-- Python `os.path.split`: split after the last slash, then strip trailing
slashes from the head unless it consists only of slashes. -/
def ospath_split (p : String) : String × String :=
  let hd := (splitAtLastSlash p.data).1
  let tl := (splitAtLastSlash p.data).2
  let head := if !hd.isEmpty && !(hd.all (fun c => c == '/')) then rstripSlash hd else hd
  (String.mk head, String.mk tl)

namespace utilities

/-- Embedding of `_split_package_file_path`: `os.path.split` the path, then
build the package path from the full path by deleting occurrences of the file
name and replacing slashes with dots. -/
def split_package_file_path (file_path : String) : String × String :=
  let sp := ospath_split file_path
  let full_path := sp.1
  let file_name := sp.2
  let package_path :=
    String.mk (pyReplace ['/'] ['.'] (pyReplace file_name.data [] full_path.data))
  (package_path, file_name)

/-- Embedding of `_load_yaml`: consult the external resource capability; an
absent file yields the empty dict (the `FileNotFoundError` branch returns
`{}`), a present file yields whatever the parser produced (`None` for empty
content). -/
def load_yaml (fs : FS) (package_path : String) (file_name : String) : Option Entries :=
  match fs package_path file_name with
  | FileState.absent => some []
  | FileState.present parsed => parsed

/-- Embedding of `_load_configs`: load every file in order, appending the
parsed dict to the result only when it is not `None`. -/
def load_configs (fs : FS) : List String → List Entries
  | [] => []
  | file_path :: rest =>
    (match load_yaml fs (split_package_file_path file_path).1
        (split_package_file_path file_path).2 with
     | some config_dict => config_dict :: load_configs fs rest
     | none => load_configs fs rest)

end utilities

/-- A Python value as it may appear as the declared `_config_files` attribute
of a configuration class. -/
inductive PyValue where
  | pyStr (s : String)
  | pyInt (n : Int)
  | pyBool (b : Bool)
  | pyNone
  | pyList (elems : List PyValue)

/-- `isinstance(v, list)`. -/
def isPyList : PyValue → Bool
  | PyValue.pyList _ => true
  | _ => false

/-- `isinstance(v, str)`. -/
def isPyStr : PyValue → Bool
  | PyValue.pyStr _ => true
  | _ => false

/-- A list of strings, element-wise: the shape the `_config_files` docstring
prescribes for the declaration. -/
def isListOfStrings : PyValue → Bool
  | PyValue.pyList elems => elems.all isPyStr
  | _ => false

/-- The three declaration failures `config_files` raises:
`NotImplementedError` when the class declares no `_config_files` at all
(the spec's `DeclarationMissing`), `ValueError` when the declared value is
not a list (`DeclarationInvalid`), and `ValueError` when the declared list is
empty (`DeclarationEmpty`). -/
inductive DeclError where
  | declarationMissing
  | declarationInvalid
  | declarationEmpty
deriving DecidableEq

/-- A resolution call can fail by re-raising a declaration failure as a
`ValueError` naming the class (the spec's `ConfigFilesRequired`), or with the
`AttributeError` Python raises when a non-string declared entry reaches
`config_file.split(".")`. -/
inductive ManifestError where
  | configFilesRequired (clsName : String)
  | attributeError

/-- Extract the `str` payload of a Python value;
`config_file.split(".")` only succeeds on strings. -/
def asString : PyValue → Option String
  | PyValue.pyStr s => some s
  | _ => none

namespace ChimeraForm

/-- `ChimeraForm.chimera_form` as declared on the class: the active-variant
registry's initial value. -/
def chimera_form : String := "local"

/-- Embedding of `ChimeraForm.set_form` as a transition on the registry
state: the new value unconditionally overwrites the old one. -/
def set_form (state : String) (new_form : String) : String := new_form

end ChimeraForm

namespace chimera_conf

/-- Embedding of `ChimeraConf.config_files`, taking the class's declared
`_config_files` value (`none` when the class declares nothing): raise unless
the declaration is a non-empty list, otherwise return it. -/
def config_files (decl : Option PyValue) : Except DeclError (List PyValue) :=
  match decl with
  | none => Except.error DeclError.declarationMissing
  | some (PyValue.pyList declared) =>
      if declared.length = 0 then Except.error DeclError.declarationEmpty
      else Except.ok declared
  | some _ => Except.error DeclError.declarationInvalid

/-- Embedding of `ChimeraConf.manifest` up to (and excluding) the external
construct-and-validate step `cls(**merged_config)`: it produces the merged
mapping handed to that step, or the error raised before it. Parameters: the
class name (used in the re-raised error), the class's declared
`_config_files` (`none` when absent), the current `ChimeraForm.chimera_form`
registry value, the file-resolution capability, and the two optional call
arguments. -/
def manifest (clsName : String) (decl : Option PyValue) (registry_form : String)
    (fs : FS) (chimera_form : Option String)
    (config_files_override : Option (List String)) : Except ManifestError Entries :=
  let form := match chimera_form with
    | none => registry_form
    | some f => f
  let filesE : Except ManifestError (List String) :=
    match config_files_override with
    | some files => Except.ok files
    | none =>
      match config_files decl with
      | Except.error _ => Except.error (ManifestError.configFilesRequired clsName)
      | Except.ok declared =>
        match declared.mapM asString with
        | some files => Except.ok files
        | none => Except.error ManifestError.attributeError
  match filesE with
  | Except.error e => Except.error e
  | Except.ok files_to_load =>
      Except.ok (utilities.merge_all_dicts
        (utilities.load_configs fs (utilities.add_config_set_files files_to_load form)))

end chimera_conf

namespace config_builder

namespace ConfigSet

/-- `ConfigSet.config_set` as declared on the class: the registry's initial
value. -/
def config_set : String := "local"

/-- `ConfigSet.set_config_set` as a transition on the registry state. -/
def set_config_set (state : String) (new_config_set : String) : String :=
  new_config_set

end ConfigSet

/-- Embedding of `merge_dicts` from `config_builder.py` (the duplicate of
`_merge_dicts`). -/
def merge_dicts (merged : Entries) : Entries → Entries
  | [] => merged
  | (overlay_key, Val.vmap om) :: rest =>
    (match lookupVal merged overlay_key with
     | some (Val.vmap bm) =>
         merge_dicts (setKey merged overlay_key (Val.vmap (merge_dicts bm om))) rest
     | some _ =>
         merge_dicts (setKey merged overlay_key (Val.vmap om)) rest
     | none =>
         merge_dicts (merged ++ [(overlay_key, Val.vmap om)]) rest)
  | (overlay_key, overlay_value) :: rest =>
    (match lookupVal merged overlay_key with
     | some _ => merge_dicts (setKey merged overlay_key overlay_value) rest
     | none => merge_dicts (merged ++ [(overlay_key, overlay_value)]) rest)
termination_by o => sizeOf o

/-- Embedding of `split_package_file_path` from `config_builder.py` (the
duplicate of `_split_package_file_path`). -/
def split_package_file_path (file_path : String) : String × String :=
  let sp := ospath_split file_path
  let full_path := sp.1
  let file_name := sp.2
  let package_path :=
    String.mk (pyReplace ['/'] ['.'] (pyReplace file_name.data [] full_path.data))
  (package_path, file_name)

/-- Embedding of `load_yaml` from `config_builder.py` (the duplicate of
`_load_yaml`). -/
def load_yaml (fs : FS) (package_path : String) (file_name : String) : Option Entries :=
  match fs package_path file_name with
  | FileState.absent => some []
  | FileState.present parsed => parsed

/-- Embedding of `load_configs` from `config_builder.py` (the duplicate of
`_load_configs`). -/
def load_configs (fs : FS) : List String → List Entries
  | [] => []
  | file_path :: rest =>
    (match load_yaml fs (split_package_file_path file_path).1
        (split_package_file_path file_path).2 with
     | some config_dict => config_dict :: load_configs fs rest
     | none => load_configs fs rest)

/-- Embedding of `merge_all_dicts` from `config_builder.py` (the duplicate of
`_merge_all_dicts`). -/
def merge_all_dicts (dicts : List Entries) : Entries :=
  dicts.foldl merge_dicts []

/-- The per-path computation inside the `add_config_set_files` loop of
`config_builder.py`. -/
def overlay_file (config_file : String) (config_set : String) : String :=
  let file_parts : List String := (splitOnDot config_file.data).map String.mk
  let file_extension := file_parts.getLastD ""
  let remainder_of_file_path := file_parts.dropLast
  joinDots (remainder_of_file_path ++ [config_set] ++ [file_extension])

/-- Embedding of `add_config_set_files` from `config_builder.py` (the
duplicate of `_add_config_set_files`). -/
def add_config_set_files (config_files : List String) (config_set : String) :
    List String :=
  let environment_config_files := config_files.map (fun f => overlay_file f config_set)
  config_files ++ environment_config_files

/-- Embedding of `ConfigBuilder.config_files` (the duplicate of
`ChimeraConf.config_files`). -/
def config_files (decl : Option PyValue) : Except DeclError (List PyValue) :=
  match decl with
  | none => Except.error DeclError.declarationMissing
  | some (PyValue.pyList declared) =>
      if declared.length = 0 then Except.error DeclError.declarationEmpty
      else Except.ok declared
  | some _ => Except.error DeclError.declarationInvalid

/-- Embedding of `ConfigBuilder.load_config` up to (and excluding)
`cls(**merged_config)`: the duplicate of `ChimeraConf.manifest`, reading the
`ConfigSet` registry instead of `ChimeraForm` when no variant argument is
passed. -/
def load_config (clsName : String) (decl : Option PyValue)
    (registry_config_set : String) (fs : FS) (config_set : Option String)
    (config_files_override : Option (List String)) : Except ManifestError Entries :=
  let cset := match config_set with
    | none => registry_config_set
    | some f => f
  let filesE : Except ManifestError (List String) :=
    match config_files_override with
    | some files => Except.ok files
    | none =>
      match config_files decl with
      | Except.error _ => Except.error (ManifestError.configFilesRequired clsName)
      | Except.ok declared =>
        match declared.mapM asString with
        | some files => Except.ok files
        | none => Except.error ManifestError.attributeError
  match filesE with
  | Except.error e => Except.error e
  | Except.ok files_to_load =>
      Except.ok (merge_all_dicts
        (load_configs fs (add_config_set_files files_to_load cset)))

end config_builder

/-!
### Heap model for the mutation claim

Python dicts are heap objects with identity, so "`base` is never mutated" is
a statement about the heap, not about values. `_merge_dicts` is re-expressed
below over an explicit heap of dict objects. Dict-valued entries are
references to other heap cells (`isinstance(v, dict)` is reference-ness);
every other value is held inline and never inspected.
-/

/-- A value stored in a dict entry on the heap: a non-dict payload held
inline, or a reference to another dict object. -/
inductive HVal where
  | scalar (v : Val)
  | ref (addr : Nat)

/-- The heap: dict objects addressed by `Nat`, plus the next fresh address.
`cells` maps each allocated address to the current entry list of that dict
object. -/
structure Heap where
  cells : List (Nat × List (String × HVal))
  next : Nat

/-- Address lookup (first match). -/
def lookupCell : List (Nat × List (String × HVal)) → Nat →
    Option (List (String × HVal))
  | [], _ => none
  | (a', es) :: rest, a => if a' = a then some es else lookupCell rest a

/-- Dereference a dict object. -/
def Heap.get (h : Heap) (a : Nat) : Option (List (String × HVal)) :=
  lookupCell h.cells a

/-- Allocate a fresh dict object holding `entries` (this is `base.copy()`:
a new object sharing the same entry list, nested references included);
returns the new heap and the fresh address. -/
def Heap.alloc (h : Heap) (entries : List (String × HVal)) : Heap × Nat :=
  ({ cells := (h.next, entries) :: h.cells, next := h.next + 1 }, h.next)

/-- Overwrite the cell at an existing address (first occurrence). -/
def setCell : List (Nat × List (String × HVal)) → Nat → List (String × HVal) →
    List (Nat × List (String × HVal))
  | [], _, _ => []
  | (a', es') :: rest, a, es =>
      if a' = a then (a, es) :: rest else (a', es') :: setCell rest a es

/-- In-place update of a dict object. -/
def Heap.set (h : Heap) (a : Nat) (es : List (String × HVal)) : Heap :=
  { cells := setCell h.cells a es, next := h.next }

/-- `d[k]` on heap-level entries. -/
def lookupHVal : List (String × HVal) → String → Option HVal
  | [], _ => none
  | (k', v) :: rest, k => if k' = k then some v else lookupHVal rest k

/-- `d[k] = v` on heap-level entries of an existing key. -/
def setHKey : List (String × HVal) → String → HVal → List (String × HVal)
  | [], k, v => [(k, v)]
  | (k', v') :: rest, k, v =>
      if k' = k then (k, v) :: rest else (k', v') :: setHKey rest k v

mutual

/-- Heap-level embedding of `_merge_dicts`: `merged = base.copy()` allocates
a fresh dict object sharing the base's entries, then the overlay's items are
walked in order by `merge_items_heap`. `fuel` bounds the recursion depth
(Python recurses without bound on cyclic dicts); `none` means out of fuel or
a dangling address. -/
def merge_dicts_heap : Nat → Heap → Nat → Nat → Option (Heap × Nat)
  | 0, _, _, _ => none
  | fuel + 1, h, base, overlay =>
    (match h.get base, h.get overlay with
     | some base_entries, some overlay_entries =>
       (match h.alloc base_entries with
        | (h1, merged) => merge_items_heap fuel h1 merged overlay_entries)
     | _, _ => none)
termination_by fuel _ _ _ => (fuel, 0)

/-- The loop over `overlay.items()`: one step per item, reading and updating
the accumulator dict object at address `merged`. The item list is the
overlay's entry list at loop entry; this matches Python's live iteration
because the loop only ever writes to the freshly allocated accumulators,
never to the overlay object (the frame theorem below proves exactly that). -/
def merge_items_heap : Nat → Heap → Nat → List (String × HVal) → Option (Heap × Nat)
  | _, h, merged, [] => some (h, merged)
  | fuel, h, merged, (overlay_key, overlay_value) :: rest =>
    (match h.get merged with
     | none => none
     | some merged_entries =>
       (match lookupHVal merged_entries overlay_key, overlay_value with
        | some (HVal.ref base_addr), HVal.ref overlay_addr =>
          (match merge_dicts_heap fuel h base_addr overlay_addr with
           | none => none
           | some (h2, sub) =>
             (match h2.get merged with
              | none => none
              | some merged_entries2 =>
                merge_items_heap fuel
                  (h2.set merged (setHKey merged_entries2 overlay_key (HVal.ref sub)))
                  merged rest))
        | some _, _ =>
          merge_items_heap fuel
            (h.set merged (setHKey merged_entries overlay_key overlay_value))
            merged rest
        | none, _ =>
          merge_items_heap fuel
            (h.set merged (merged_entries ++ [(overlay_key, overlay_value)]))
            merged rest))
termination_by fuel _ _ items => (fuel, items.length + 1)

end

/-- An entry value is within the allocated region. -/
def hvalOK (n : Nat) : HVal → Bool
  | HVal.scalar _ => true
  | HVal.ref a => decide (a < n)

/-- A heap is well formed when every cell lives below `next` and every
reference points below `next`. -/
def wfHeap (h : Heap) : Bool :=
  h.cells.all (fun c => decide (c.1 < h.next) && c.2.all (fun kv => hvalOK h.next kv.2))

mutual

/-- Read the dict object at `addr` back into a pure `Val` tree, following
references; `fuel` bounds the depth. -/
def read_dict : Nat → Heap → Nat → Option Val
  | 0, _, _ => none
  | fuel + 1, h, addr =>
    (match h.get addr with
     | none => none
     | some es =>
       (match read_entries fuel h es with
        | some entries => some (Val.vmap entries)
        | none => none))
termination_by fuel _ _ => (fuel, 0)

/-- Read a heap-level entry list back into pure entries. -/
def read_entries : Nat → Heap → List (String × HVal) → Option Entries
  | _, _, [] => some []
  | fuel, h, (k, HVal.scalar v) :: rest =>
    (match read_entries fuel h rest with
     | some tail => some ((k, v) :: tail)
     | none => none)
  | fuel, h, (k, HVal.ref a) :: rest =>
    (match read_dict fuel h a, read_entries fuel h rest with
     | some v, some tail => some ((k, v) :: tail)
     | _, _ => none)
termination_by fuel _ items => (fuel, items.length + 1)

end

/-! ## Theorems -/

@[simp] theorem lookupVal_nil (k : String) : lookupVal [] k = none := rfl

theorem lookupVal_cons (k' : String) (v : Val) (rest : Entries) (k : String) :
    lookupVal ((k', v) :: rest) k = if k' = k then some v else lookupVal rest k := rfl

@[simp] theorem lookup_setKey_self (m : Entries) (k : String) (v : Val) :
    lookupVal (setKey m k v) k = some v := by
  induction m with
  | nil => simp [setKey, lookupVal]
  | cons hd tl ih =>
    obtain ⟨k', v'⟩ := hd
    by_cases h : k' = k
    · simp [setKey, lookupVal, h]
    · simp [setKey, lookupVal, h, ih]

theorem lookup_setKey_ne (m : Entries) (kset k : String) (v : Val) (h : kset ≠ k) :
    lookupVal (setKey m kset v) k = lookupVal m k := by
  induction m with
  | nil => simp [setKey, lookupVal, h]
  | cons hd tl ih =>
    obtain ⟨k', v'⟩ := hd
    by_cases h' : k' = kset
    · subst h'
      simp [setKey, lookupVal, h]
    · simp [setKey, lookupVal, h', ih]

theorem lookupVal_append (m₁ m₂ : Entries) (k : String) :
    lookupVal (m₁ ++ m₂) k =
      match lookupVal m₁ k with
      | some v => some v
      | none => lookupVal m₂ k := by
  induction m₁ with
  | nil => simp [lookupVal]
  | cons hd tl ih =>
    obtain ⟨k', v'⟩ := hd
    by_cases h : k' = k
    · simp [lookupVal, h]
    · simp [lookupVal, h, ih]

theorem lookupVal_eq_none_of_not_mem {m : Entries} {k : String} (h : k ∉ keys m) :
    lookupVal m k = none := by
  induction m with
  | nil => rfl
  | cons hd tl ih =>
    obtain ⟨k', v'⟩ := hd
    simp only [keys, List.map_cons, List.mem_cons] at h
    push_neg at h
    have hne : ¬(k' = k) := fun hk => h.1 hk.symm
    simp [lookupVal, hne, ih (by simpa [keys] using h.2)]

theorem mem_keys_iff_lookup {m : Entries} {k : String} :
    k ∈ keys m ↔ (lookupVal m k).isSome := by
  induction m with
  | nil => simp [keys, lookupVal]
  | cons hd tl ih =>
    obtain ⟨k', v'⟩ := hd
    by_cases h : k' = k
    · subst h
      simp [keys, lookupVal]
    · have hne : ¬(k = k') := fun hk => h hk.symm
      have h1 : lookupVal ((k', v') :: tl) k = lookupVal tl k := by simp [lookupVal, h]
      have h2 : keys ((k', v') :: tl) = k' :: keys tl := rfl
      rw [h1, h2, List.mem_cons]
      simp [hne, ih]

namespace utilities

theorem merge_dicts_nil (merged : Entries) : merge_dicts merged [] = merged := by
  simp [merge_dicts]

theorem merge_dicts_cons (merged : Entries) (k : String) (v : Val) (rest : Entries) :
    merge_dicts merged ((k, v) :: rest)
      = merge_dicts (mergeStep merged k (combineVals (lookupVal merged k) v)) rest := by
  cases v with
  | vmap om =>
    cases h : lookupVal merged k with
    | none => simp [merge_dicts, mergeStep, combineVals, h]
    | some w => cases w <;> simp [merge_dicts, mergeStep, combineVals, h]
  | vstr s =>
    cases h : lookupVal merged k with
    | none => simp [merge_dicts, mergeStep, combineVals, h]
    | some w => simp [merge_dicts, mergeStep, combineVals, h]
  | vint n =>
    cases h : lookupVal merged k with
    | none => simp [merge_dicts, mergeStep, combineVals, h]
    | some w => simp [merge_dicts, mergeStep, combineVals, h]
  | vbool b =>
    cases h : lookupVal merged k with
    | none => simp [merge_dicts, mergeStep, combineVals, h]
    | some w => simp [merge_dicts, mergeStep, combineVals, h]
  | vnull =>
    cases h : lookupVal merged k with
    | none => simp [merge_dicts, mergeStep, combineVals, h]
    | some w => simp [merge_dicts, mergeStep, combineVals, h]
  | vseq xs =>
    cases h : lookupVal merged k with
    | none => simp [merge_dicts, mergeStep, combineVals, h]
    | some w => simp [merge_dicts, mergeStep, combineVals, h]

theorem lookup_mergeStep_self (m : Entries) (k : String) (v : Val) :
    lookupVal (mergeStep m k v) k = some v := by
  unfold mergeStep
  cases h : lookupVal m k with
  | none => simp [lookupVal_append, h, lookupVal]
  | some w => simp [lookup_setKey_self]

theorem lookup_mergeStep_ne (m : Entries) (kset k : String) (v : Val) (h : kset ≠ k) :
    lookupVal (mergeStep m kset v) k = lookupVal m k := by
  unfold mergeStep
  cases hl : lookupVal m kset with
  | none =>
    rw [lookupVal_append]
    cases hk : lookupVal m k <;> simp [lookupVal, h]
  | some w => simp [lookup_setKey_ne _ _ _ _ h]

/-- Pointwise characterisation of `_merge_dicts`: the result's lookup at any
key is the overlay value combined with the base value, falling back to the
base when the overlay does not bind the key. Requires the overlay to have
Python-dict keys (no duplicates). -/
theorem lookup_merge_dicts (overlay : Entries) :
    ∀ (merged : Entries) (k : String), (keys overlay).Nodup →
      lookupVal (merge_dicts merged overlay) k =
        match lookupVal overlay k with
        | none => lookupVal merged k
        | some v => some (combineVals (lookupVal merged k) v) := by
  induction overlay with
  | nil => intro merged k _; simp [merge_dicts_nil, lookupVal]
  | cons hd rest ih =>
    intro merged k hnd
    obtain ⟨k', v'⟩ := hd
    simp only [keys, List.map_cons, List.nodup_cons] at hnd
    rw [merge_dicts_cons, ih _ _ hnd.2]
    by_cases hk : k' = k
    · subst hk
      have hrest : lookupVal rest k' = none :=
        lookupVal_eq_none_of_not_mem (by simpa [keys] using hnd.1)
      simp [lookupVal, hrest, lookup_mergeStep_self]
    · have h1 : lookupVal ((k', v') :: rest) k = lookupVal rest k := by
        simp [lookupVal, hk]
      rw [h1, lookup_mergeStep_ne _ _ _ _ hk]

theorem combineVals_none (v : Val) : combineVals none v = v := by
  cases v <;> rfl

theorem combineVals_map_map (ma mb : Entries) :
    combineVals (some (Val.vmap ma)) (Val.vmap mb) = Val.vmap (merge_dicts ma mb) := rfl

theorem combineVals_not_map (va vb : Val) (h : isMap va = false ∨ isMap vb = false) :
    combineVals (some va) vb = vb := by
  cases va <;> cases vb <;> simp [combineVals, isMap] at h ⊢

/-- `combineVals` leaves the overlay value unchanged whenever it is not a
nested mapping. -/
theorem combineVals_overlay_not_map (ov : Option Val) (w : Val) (h : isMap w = false) :
    combineVals ov w = w := by
  cases ov with
  | none => exact combineVals_none w
  | some va => exact combineVals_not_map va w (Or.inr h)

/-- `combineVals` leaves the overlay value unchanged whenever the base value is
not a nested mapping. -/
theorem combineVals_base_not_map (va w : Val) (h : isMap va = false) :
    combineVals (some va) w = w :=
  combineVals_not_map va w (Or.inl h)

end utilities

theorem entriesWF_nodup {m : Entries} (h : entriesWF m = true) : (keys m).Nodup := by
  induction m with
  | nil => simp [keys]
  | cons hd tl ih =>
    obtain ⟨k, v⟩ := hd
    rw [entriesWF] at h
    simp only [Bool.and_eq_true, decide_eq_true_eq] at h
    have h2 : keys ((k, v) :: tl) = k :: keys tl := rfl
    rw [h2]
    exact List.nodup_cons.mpr ⟨h.1.1, ih h.2⟩

theorem entriesWF_lookup {m : Entries} {k : String} {v : Val}
    (h : entriesWF m = true) (hl : lookupVal m k = some v) : valWF v = true := by
  induction m with
  | nil => simp [lookupVal] at hl
  | cons hd tl ih =>
    obtain ⟨k', v'⟩ := hd
    rw [entriesWF] at h
    simp only [Bool.and_eq_true, decide_eq_true_eq] at h
    rw [lookupVal] at hl
    by_cases hk : k' = k
    · rw [if_pos hk] at hl
      cases hl
      exact h.1.2
    · rw [if_neg hk] at hl
      exact ih h.2 hl

@[simp] theorem getPath_nil (v : Val) : getPath v [] = some v := rfl

theorem getPath_vmap_cons (m : Entries) (k : String) (rest : List String) :
    getPath (Val.vmap m) (k :: rest) =
      match lookupVal m k with
      | some v => getPath v rest
      | none => none := rfl

namespace utilities

/-- Whatever the base is, a path that the (well-formed) overlay binds to a
non-mapping value is bound to exactly that value in the merge. -/
theorem getPath_merge_dicts_override :
    ∀ (p : List String) (a b : Entries), entriesWF b = true →
      ∀ v, getPath (Val.vmap b) p = some v → isMap v = false →
        getPath (Val.vmap (merge_dicts a b)) p = some v := by
  intro p
  induction p with
  | nil =>
    intro a b hb v hv hnm
    rw [getPath_nil, Option.some_inj] at hv
    rw [← hv] at hnm
    simp [isMap] at hnm
  | cons k rest ih =>
    intro a b hb v hv hnm
    rw [getPath_vmap_cons] at hv
    cases hw : lookupVal b k with
    | none => rw [hw] at hv; cases hv
    | some w =>
      rw [hw] at hv
      have hv' : getPath w rest = some v := hv
      have hchar := lookup_merge_dicts b a k (entriesWF_nodup hb)
      have hres : lookupVal (merge_dicts a b) k
          = some (combineVals (lookupVal a k) w) := by
        rw [hchar, hw]
      rw [getPath_vmap_cons, hres]
      show getPath (combineVals (lookupVal a k) w) rest = some v
      cases w with
      | vmap om =>
        have hom : entriesWF om = true := by
          have hwf := entriesWF_lookup hb hw
          rw [valWF] at hwf
          exact hwf
        cases ha' : lookupVal a k with
        | none => rw [combineVals_none]; exact hv'
        | some va =>
          cases va with
          | vmap bm =>
            rw [combineVals_map_map]
            exact ih bm om hom v hv' hnm
          | vstr s =>
            rw [combineVals_base_not_map (Val.vstr s) (Val.vmap om) rfl]; exact hv'
          | vint n =>
            rw [combineVals_base_not_map (Val.vint n) (Val.vmap om) rfl]; exact hv'
          | vbool b' =>
            rw [combineVals_base_not_map (Val.vbool b') (Val.vmap om) rfl]; exact hv'
          | vnull =>
            rw [combineVals_base_not_map Val.vnull (Val.vmap om) rfl]; exact hv'
          | vseq xs =>
            rw [combineVals_base_not_map (Val.vseq xs) (Val.vmap om) rfl]; exact hv'
      | vstr s =>
        rw [combineVals_overlay_not_map (lookupVal a k) (Val.vstr s) rfl]; exact hv'
      | vint n =>
        rw [combineVals_overlay_not_map (lookupVal a k) (Val.vint n) rfl]; exact hv'
      | vbool b' =>
        rw [combineVals_overlay_not_map (lookupVal a k) (Val.vbool b') rfl]; exact hv'
      | vnull =>
        rw [combineVals_overlay_not_map (lookupVal a k) Val.vnull rfl]; exact hv'
      | vseq xs =>
        rw [combineVals_overlay_not_map (lookupVal a k) (Val.vseq xs) rfl]; exact hv'

end utilities

/-- Claim C5: folding `[m1, m2, m3]` left-to-right by `_merge_all_dicts`
(`reduce` of `_merge_dicts` starting from the empty mapping), a field set in
`m1` and overridden in `m3` by a non-mapping value ends with `m3`'s value
regardless of `m2`'s content for that field, at every nesting depth (path)
independently. -/
theorem merge_all_dicts_precedence (m1 m2 m3 : Entries) (p : List String) (w v : Val)
    (h3 : entriesWF m3 = true)
    (h1 : getPath (Val.vmap m1) p = some w)
    (h3v : getPath (Val.vmap m3) p = some v)
    (hscalar : isMap v = false) :
    getPath (Val.vmap (utilities.merge_all_dicts [m1, m2, m3])) p = some v := by
  have hfold : utilities.merge_all_dicts [m1, m2, m3]
      = utilities.merge_dicts
          (utilities.merge_dicts (utilities.merge_dicts [] m1) m2) m3 := rfl
  rw [hfold]
  exact utilities.getPath_merge_dicts_override p _ m3 h3 v h3v hscalar

/-- Concrete instance of Claim C5's theorem: `f` set to `1` in `m1`, to `5` in
`m2`, and to `9` in `m3`; the fold yields `9`. -/
theorem merge_all_dicts_precedence_witness :
    getPath (Val.vmap (utilities.merge_all_dicts
        [[("f", Val.vint 1), ("g", Val.vint 7)], [("f", Val.vint 5)], [("f", Val.vint 9)]]))
      ["f"] = some (Val.vint 9) :=
  merge_all_dicts_precedence
    [("f", Val.vint 1), ("g", Val.vint 7)] [("f", Val.vint 5)] [("f", Val.vint 9)]
    ["f"] (Val.vint 1) (Val.vint 9)
    (by simp [entriesWF, valWF, keys]) rfl rfl rfl

/-- Claim C1: `_merge_dicts a b` returns a mapping whose key set is exactly the
union of the key sets of `a` and `b`; a key present only in `a` keeps `a`'s
value, a key present only in `b` gets `b`'s value, and a key present in both
maps to `_merge_dicts a[k] b[k]` when both values are nested mappings and to
`b[k]` in every other case (sequences, scalars, or a mapping on only one side
are replaced whole). -/
theorem merge_dicts_spec (a b : Entries)
    (ha : (keys a).Nodup) (hb : (keys b).Nodup) (k : String) :
    (k ∈ keys (utilities.merge_dicts a b) ↔ k ∈ keys a ∨ k ∈ keys b)
  ∧ (lookupVal b k = none → lookupVal (utilities.merge_dicts a b) k = lookupVal a k)
  ∧ (∀ v, lookupVal a k = none → lookupVal b k = some v →
      lookupVal (utilities.merge_dicts a b) k = some v)
  ∧ (∀ ma mb, lookupVal a k = some (Val.vmap ma) → lookupVal b k = some (Val.vmap mb) →
      lookupVal (utilities.merge_dicts a b) k
        = some (Val.vmap (utilities.merge_dicts ma mb)))
  ∧ (∀ va vb, lookupVal a k = some va → lookupVal b k = some vb →
      (isMap va = false ∨ isMap vb = false) →
      lookupVal (utilities.merge_dicts a b) k = some vb) := by
  have hchar := utilities.lookup_merge_dicts b a k hb
  refine ⟨?_, ?_, ?_, ?_, ?_⟩
  · rw [mem_keys_iff_lookup, mem_keys_iff_lookup (m := a), mem_keys_iff_lookup (m := b),
      hchar]
    cases hb' : lookupVal b k <;> cases ha' : lookupVal a k <;> simp
  · intro hb0
    rw [hchar, hb0]
  · intro v ha0 hb0
    rw [hchar, hb0, ha0]
    simp [utilities.combineVals_none]
  · intro ma mb ha0 hb0
    rw [hchar, hb0, ha0]
    simp [utilities.combineVals_map_map]
  · intro va vb ha0 hb0 hnm
    rw [hchar, hb0, ha0]
    simp [utilities.combineVals_not_map va vb hnm]

/-- Concrete instance of Claim C1's theorem: merging
`{x: 1, m: {a: 1}}` with `{m: {b: 2}, y: 3}` at key `m`. -/
theorem merge_dicts_spec_witness :
    (("m" ∈ keys (utilities.merge_dicts
          [("x", Val.vint 1), ("m", Val.vmap [("a", Val.vint 1)])]
          [("m", Val.vmap [("b", Val.vint 2)]), ("y", Val.vint 3)])
        ↔ "m" ∈ keys [("x", Val.vint 1), ("m", Val.vmap [("a", Val.vint 1)])]
          ∨ "m" ∈ keys [("m", Val.vmap [("b", Val.vint 2)]), ("y", Val.vint 3)]))
  ∧ (lookupVal [("m", Val.vmap [("b", Val.vint 2)]), ("y", Val.vint 3)] "m" = none →
      lookupVal (utilities.merge_dicts
          [("x", Val.vint 1), ("m", Val.vmap [("a", Val.vint 1)])]
          [("m", Val.vmap [("b", Val.vint 2)]), ("y", Val.vint 3)]) "m"
        = lookupVal [("x", Val.vint 1), ("m", Val.vmap [("a", Val.vint 1)])] "m")
  ∧ (∀ v, lookupVal [("x", Val.vint 1), ("m", Val.vmap [("a", Val.vint 1)])] "m" = none →
      lookupVal [("m", Val.vmap [("b", Val.vint 2)]), ("y", Val.vint 3)] "m" = some v →
      lookupVal (utilities.merge_dicts
          [("x", Val.vint 1), ("m", Val.vmap [("a", Val.vint 1)])]
          [("m", Val.vmap [("b", Val.vint 2)]), ("y", Val.vint 3)]) "m" = some v)
  ∧ (∀ ma mb,
      lookupVal [("x", Val.vint 1), ("m", Val.vmap [("a", Val.vint 1)])] "m"
        = some (Val.vmap ma) →
      lookupVal [("m", Val.vmap [("b", Val.vint 2)]), ("y", Val.vint 3)] "m"
        = some (Val.vmap mb) →
      lookupVal (utilities.merge_dicts
          [("x", Val.vint 1), ("m", Val.vmap [("a", Val.vint 1)])]
          [("m", Val.vmap [("b", Val.vint 2)]), ("y", Val.vint 3)]) "m"
        = some (Val.vmap (utilities.merge_dicts ma mb)))
  ∧ (∀ va vb,
      lookupVal [("x", Val.vint 1), ("m", Val.vmap [("a", Val.vint 1)])] "m" = some va →
      lookupVal [("m", Val.vmap [("b", Val.vint 2)]), ("y", Val.vint 3)] "m" = some vb →
      (isMap va = false ∨ isMap vb = false) →
      lookupVal (utilities.merge_dicts
          [("x", Val.vint 1), ("m", Val.vmap [("a", Val.vint 1)])]
          [("m", Val.vmap [("b", Val.vint 2)]), ("y", Val.vint 3)]) "m" = some vb) :=
  merge_dicts_spec
    [("x", Val.vint 1), ("m", Val.vmap [("a", Val.vint 1)])]
    [("m", Val.vmap [("b", Val.vint 2)]), ("y", Val.vint 3)]
    (by decide) (by decide) "m"

/-- Claim C2 counterexample: contrary to the claim, the overlay path derived
by the per-path computation inside `_add_config_set_files` from `a/b.yml` with
variant `prod` is not `a.b.prod.yml`; the slash-delimited location portion is
not re-expressed with dots there. -/
theorem overlay_file_counterexample :
    utilities.overlay_file "a/b.yml" "prod" ≠ "a.b.prod.yml" := by
  decide

/-- Claim C2 (amended): the per-path computation inside `_add_config_set_files`
inserts the variant as a new dot-segment immediately before the extension and
leaves the location portion — slashes included — unchanged: `a/b.yml` with
variant `prod` yields `a/b.prod.yml` (the slash-to-dot re-expression happens
later, in `_split_package_file_path`, at load time). A dot-delimited path
behaves as the spec's general rule says: `a.b.yml` yields `a.b.prod.yml`. -/
theorem overlay_file_spec :
    utilities.overlay_file "a/b.yml" "prod" = "a/b.prod.yml"
  ∧ utilities.overlay_file "a.b.yml" "prod" = "a.b.prod.yml"
  ∧ utilities.add_config_set_files ["a/b.yml"] "prod" = ["a/b.yml", "a/b.prod.yml"] := by
  refine ⟨by decide, by decide, by decide⟩

/-- Claim C3: `_add_config_set_files base_paths variant` returns `base_paths`
followed by the derived overlay path of each base path, preserving the
original relative order within each half: the result is exactly twice as long
as the input, its first half is the input, and its second half is the overlay
of each input in order; in particular `["a.yml", "b.yml"]` with `dev` yields
`["a.yml", "b.yml", "a.dev.yml", "b.dev.yml"]`. -/
theorem add_config_set_files_spec (base_paths : List String) (variant : String) :
    (utilities.add_config_set_files base_paths variant).length = 2 * base_paths.length
  ∧ (utilities.add_config_set_files base_paths variant).take base_paths.length
      = base_paths
  ∧ (utilities.add_config_set_files base_paths variant).drop base_paths.length
      = base_paths.map (fun p => utilities.overlay_file p variant)
  ∧ utilities.add_config_set_files ["a.yml", "b.yml"] "dev"
      = ["a.yml", "b.yml", "a.dev.yml", "b.dev.yml"] := by
  refine ⟨?_, ?_, ?_, by decide⟩
  · simp [utilities.add_config_set_files]
    omega
  · simp [utilities.add_config_set_files, List.take_left]
  · simp [utilities.add_config_set_files, List.drop_left]

/-- Claim C4 counterexample: with a single path whose file exists but parses
to nothing (empty YAML, where `yaml.safe_load` returns `None`),
`_load_configs` skips the entry entirely — the output is shorter than the
input, contradicting the claimed one-mapping-per-path contract. -/
theorem load_configs_length_counterexample :
    (utilities.load_configs (fun _ _ => FileState.present none) ["a.yml"]).length
      ≠ ["a.yml"].length := by
  decide

/-- Claim C4 (amended): `_load_configs` returns, in input order, one mapping
for every path whose load yields a dict: a path whose file is absent
contributes the empty mapping (not an error), but a path whose file exists
with empty/absent parsed content contributes nothing (it is skipped), so the
output has the same length as the input exactly when no input file is
present-but-empty. -/
theorem load_configs_spec (fs : FS) (paths : List String) :
    utilities.load_configs fs paths
      = paths.filterMap (fun p =>
          utilities.load_yaml fs (utilities.split_package_file_path p).1
            (utilities.split_package_file_path p).2)
  ∧ ((∀ p ∈ paths,
        fs (utilities.split_package_file_path p).1 (utilities.split_package_file_path p).2
          ≠ FileState.present none) →
      (utilities.load_configs fs paths).length = paths.length) := by
  constructor
  · induction paths with
    | nil => rfl
    | cons p rest ih =>
      cases h : utilities.load_yaml fs (utilities.split_package_file_path p).1
          (utilities.split_package_file_path p).2 with
      | none => simp [utilities.load_configs, h, List.filterMap_cons, ih]
      | some d => simp [utilities.load_configs, h, List.filterMap_cons, ih]
  · induction paths with
    | nil => intro _; rfl
    | cons p rest ih =>
      intro hall
      have hp := hall p (List.mem_cons_self _ _)
      have htail := ih (fun q hq => hall q (List.mem_cons_of_mem _ hq))
      cases hfs : fs (utilities.split_package_file_path p).1
          (utilities.split_package_file_path p).2 with
      | absent =>
        simp [utilities.load_configs, utilities.load_yaml, hfs, htail]
      | present parsed =>
        cases parsed with
        | none => exact absurd hfs hp
        | some d =>
          simp [utilities.load_configs, utilities.load_yaml, hfs, htail]

/-- Concrete instance of Claim C4's amended theorem: one absent file
contributes the empty mapping and the lengths agree. -/
theorem load_configs_spec_witness :
    (utilities.load_configs (fun _ _ => FileState.absent) ["a.yml"]
        = ["a.yml"].filterMap (fun p =>
            utilities.load_yaml (fun _ _ => FileState.absent)
              (utilities.split_package_file_path p).1
              (utilities.split_package_file_path p).2))
  ∧ (utilities.load_configs (fun _ _ => FileState.absent) ["a.yml"]).length
      = ["a.yml"].length :=
  ⟨(load_configs_spec (fun _ _ => FileState.absent) ["a.yml"]).1,
   (load_configs_spec (fun _ _ => FileState.absent) ["a.yml"]).2
     (fun _ _ h => FileState.noConfusion h)⟩

/-- Claim C6 counterexample: `[3]` is not a list of strings, yet
`config_files` does not fail with `DeclarationInvalid` — only listness is
checked, and the declared list is returned unchanged. -/
theorem config_files_invalid_counterexample :
    isListOfStrings (PyValue.pyList [PyValue.pyInt 3]) = false
  ∧ chimera_conf.config_files (some (PyValue.pyList [PyValue.pyInt 3]))
      = Except.ok [PyValue.pyInt 3] :=
  ⟨rfl, rfl⟩

/-- Claim C6 (amended): `config_files` fails with `DeclarationInvalid` exactly
when the declared `_config_files` value is not a list (element types are not
checked, so a list of non-strings passes); it fails with `DeclarationMissing`
exactly when the type has no declaration at all, with `DeclarationEmpty`
exactly when the declared list has zero entries, and succeeds, returning the
declared list, in every other case. -/
theorem config_files_spec (decl : Option PyValue) :
    (chimera_conf.config_files decl = Except.error DeclError.declarationMissing
      ↔ decl = none)
  ∧ (chimera_conf.config_files decl = Except.error DeclError.declarationInvalid
      ↔ ∃ v, decl = some v ∧ isPyList v = false)
  ∧ (chimera_conf.config_files decl = Except.error DeclError.declarationEmpty
      ↔ decl = some (PyValue.pyList []))
  ∧ (∀ xs, decl = some (PyValue.pyList xs) → xs ≠ [] →
      chimera_conf.config_files decl = Except.ok xs) := by
  refine ⟨?_, ?_, ?_, ?_⟩
  · cases decl with
    | none => simp [chimera_conf.config_files]
    | some v =>
      cases v with
      | pyList xs =>
        by_cases h : xs.length = 0 <;> simp [chimera_conf.config_files, h]
      | pyStr s => simp [chimera_conf.config_files]
      | pyInt n => simp [chimera_conf.config_files]
      | pyBool b => simp [chimera_conf.config_files]
      | pyNone => simp [chimera_conf.config_files]
  · cases decl with
    | none => simp [chimera_conf.config_files]
    | some v =>
      cases v with
      | pyList xs =>
        by_cases h : xs.length = 0 <;> simp [chimera_conf.config_files, h, isPyList]
      | pyStr s => simp [chimera_conf.config_files, isPyList]
      | pyInt n => simp [chimera_conf.config_files, isPyList]
      | pyBool b => simp [chimera_conf.config_files, isPyList]
      | pyNone => simp [chimera_conf.config_files, isPyList]
  · cases decl with
    | none => simp [chimera_conf.config_files]
    | some v =>
      cases v with
      | pyList xs =>
        by_cases h : xs.length = 0
        · have hnil : xs = [] := List.length_eq_zero.mp h
          subst hnil
          simp [chimera_conf.config_files]
        · have hnil : ¬(xs = []) := fun hx => h (by simp [hx])
          simp [chimera_conf.config_files, h, hnil]
      | pyStr s => simp [chimera_conf.config_files]
      | pyInt n => simp [chimera_conf.config_files]
      | pyBool b => simp [chimera_conf.config_files]
      | pyNone => simp [chimera_conf.config_files]
  · intro xs hdecl hne
    subst hdecl
    have h : ¬(xs.length = 0) := fun h0 => hne (List.length_eq_zero.mp h0)
    simp [chimera_conf.config_files, h]

/-- Concrete instance of Claim C6's amended theorem: a singleton declared
list is returned as is. -/
theorem config_files_spec_witness :
    chimera_conf.config_files (some (PyValue.pyList [PyValue.pyStr "configs/base.yml"]))
      = Except.ok [PyValue.pyStr "configs/base.yml"] :=
  (config_files_spec (some (PyValue.pyList [PyValue.pyStr "configs/base.yml"]))).2.2.2
    [PyValue.pyStr "configs/base.yml"] rfl (by simp)

/-- Claim C7: when the caller supplies `config_files_override`, the class
declaration is never consulted: the result is independent of the declaration,
the call always produces a merged mapping (no declaration-related failure,
even for a missing, malformed or empty declaration), and a
`ConfigFilesRequired` failure can only arise on calls made without an
override list. -/
theorem manifest_override_spec :
    (∀ cls (decl decl' : Option PyValue) reg (fs : FS) form files,
        chimera_conf.manifest cls decl reg fs form (some files)
          = chimera_conf.manifest cls decl' reg fs form (some files))
  ∧ (∀ cls (decl : Option PyValue) reg (fs : FS) form files, ∃ m,
        chimera_conf.manifest cls decl reg fs form (some files) = Except.ok m)
  ∧ (∀ cls (decl : Option PyValue) reg (fs : FS) form ov c,
        chimera_conf.manifest cls decl reg fs form ov
          = Except.error (ManifestError.configFilesRequired c) → ov = none) := by
  refine ⟨fun _ _ _ _ _ _ _ => rfl, fun _ _ _ _ _ _ => ⟨_, rfl⟩, ?_⟩
  intro cls decl reg fs form ov c h
  cases ov with
  | none => rfl
  | some files => simp [chimera_conf.manifest] at h

/-- Concrete instance of Claim C7's theorem: on a call where the declaration
is missing and no override is supplied, the `ConfigFilesRequired` failure
indeed arises on an override-free call. -/
theorem manifest_override_spec_witness :
    (none : Option (List String)) = none :=
  manifest_override_spec.2.2 "MyConfig" none "local" (fun _ _ => FileState.absent)
    none none "MyConfig" rfl

/-- Claim C8: a resolution call given an explicit `chimera_form` argument
produces the same result for every value of the active-variant registry (the
registry is read only when the argument is absent); a no-argument call
behaves exactly like a call passing the current registry value; the registry
defaults to `"local"`; and `set_form` unconditionally overwrites the registry
with the new value — last write wins — so it changes the variant used by
every subsequent no-argument resolution call. -/
theorem manifest_variant_spec :
    (∀ cls (decl : Option PyValue) (fs : FS) v ov r₁ r₂,
        chimera_conf.manifest cls decl r₁ fs (some v) ov
          = chimera_conf.manifest cls decl r₂ fs (some v) ov)
  ∧ (∀ cls (decl : Option PyValue) (fs : FS) r ov,
        chimera_conf.manifest cls decl r fs none ov
          = chimera_conf.manifest cls decl r fs (some r) ov)
  ∧ ChimeraForm.chimera_form = "local"
  ∧ (∀ s v, ChimeraForm.set_form s v = v)
  ∧ (∀ cls (decl : Option PyValue) (fs : FS) ov s₁ s₂ v,
        chimera_conf.manifest cls decl
            (ChimeraForm.set_form (ChimeraForm.set_form s₁ s₂) v) fs none ov
          = chimera_conf.manifest cls decl v fs none ov) :=
  ⟨fun _ _ _ _ _ _ _ => rfl, fun _ _ _ _ _ => rfl, rfl, fun _ _ => rfl,
   fun _ _ _ _ _ _ _ => rfl⟩

theorem cb_merge_dicts_eq : ∀ (m o : Entries),
    config_builder.merge_dicts m o = utilities.merge_dicts m o := by
  intro m o
  induction m, o using utilities.merge_dicts.induct with
  | case1 merged => simp [utilities.merge_dicts, config_builder.merge_dicts]
  | case2 merged k om rest bm hlook ih1 ih2 =>
    simp [utilities.merge_dicts, config_builder.merge_dicts, hlook, ih1, ih2]
  | case3 merged k om rest val hnotmap hlook ih =>
    cases val with
    | vmap bm => exact absurd rfl (hnotmap bm)
    | vstr s => simp [utilities.merge_dicts, config_builder.merge_dicts, hlook, ih]
    | vint n => simp [utilities.merge_dicts, config_builder.merge_dicts, hlook, ih]
    | vbool b => simp [utilities.merge_dicts, config_builder.merge_dicts, hlook, ih]
    | vnull => simp [utilities.merge_dicts, config_builder.merge_dicts, hlook, ih]
    | vseq xs => simp [utilities.merge_dicts, config_builder.merge_dicts, hlook, ih]
  | case4 merged k om rest hlook ih =>
    simp [utilities.merge_dicts, config_builder.merge_dicts, hlook, ih]
  | case5 merged k v rest hnotmap val hlook ih =>
    cases v with
    | vmap om => exact absurd rfl (hnotmap om)
    | vstr s => simp [utilities.merge_dicts, config_builder.merge_dicts, hlook, ih]
    | vint n => simp [utilities.merge_dicts, config_builder.merge_dicts, hlook, ih]
    | vbool b => simp [utilities.merge_dicts, config_builder.merge_dicts, hlook, ih]
    | vnull => simp [utilities.merge_dicts, config_builder.merge_dicts, hlook, ih]
    | vseq xs => simp [utilities.merge_dicts, config_builder.merge_dicts, hlook, ih]
  | case6 merged k v rest hnotmap hlook ih =>
    cases v with
    | vmap om => exact absurd rfl (hnotmap om)
    | vstr s => simp [utilities.merge_dicts, config_builder.merge_dicts, hlook, ih]
    | vint n => simp [utilities.merge_dicts, config_builder.merge_dicts, hlook, ih]
    | vbool b => simp [utilities.merge_dicts, config_builder.merge_dicts, hlook, ih]
    | vnull => simp [utilities.merge_dicts, config_builder.merge_dicts, hlook, ih]
    | vseq xs => simp [utilities.merge_dicts, config_builder.merge_dicts, hlook, ih]

theorem cb_load_configs_eq : ∀ (fs : FS) (files : List String),
    config_builder.load_configs fs files = utilities.load_configs fs files := by
  intro fs files
  induction files with
  | nil => rfl
  | cons p rest ih =>
    have hy : config_builder.load_yaml fs (config_builder.split_package_file_path p).1
        (config_builder.split_package_file_path p).2
      = utilities.load_yaml fs (utilities.split_package_file_path p).1
        (utilities.split_package_file_path p).2 := rfl
    cases h : utilities.load_yaml fs (utilities.split_package_file_path p).1
        (utilities.split_package_file_path p).2 with
    | none => simp [config_builder.load_configs, utilities.load_configs, hy, h, ih]
    | some d => simp [config_builder.load_configs, utilities.load_configs, hy, h, ih]

theorem cb_merge_all_dicts_eq : ∀ (dicts : List Entries),
    config_builder.merge_all_dicts dicts = utilities.merge_all_dicts dicts := by
  have h : config_builder.merge_dicts = utilities.merge_dicts :=
    funext fun m => funext fun o => cb_merge_dicts_eq m o
  intro dicts
  simp [config_builder.merge_all_dicts, utilities.merge_all_dicts, h]

theorem cb_pipeline_tail_eq (fs : FS) (files : List String) (cset : String) :
    config_builder.merge_all_dicts
        (config_builder.load_configs fs (config_builder.add_config_set_files files cset))
      = utilities.merge_all_dicts
        (utilities.load_configs fs (utilities.add_config_set_files files cset)) := by
  have hadd : config_builder.add_config_set_files = utilities.add_config_set_files := rfl
  rw [cb_merge_all_dicts_eq, cb_load_configs_eq, hadd]

/-- Claim C10: the duplicated pipeline in `config_builder.py` is extensionally
equal to the primary pipeline: `merge_dicts` equals `_merge_dicts`,
`add_config_set_files` equals `_add_config_set_files`, and `load_configs`
equals `_load_configs` on all inputs, and `ConfigBuilder.load_config` performs
the same resolution steps as `ChimeraConf.manifest`, with both registry
objects (`ConfigSet` and `ChimeraForm`) supplying the variant when none is
passed, each defaulting to `"local"`. -/
theorem config_builder_matches_primary :
    (∀ a b : Entries, config_builder.merge_dicts a b = utilities.merge_dicts a b)
  ∧ (∀ (files : List String) (cs : String),
      config_builder.add_config_set_files files cs
        = utilities.add_config_set_files files cs)
  ∧ (∀ (fsys : FS) (files : List String),
      config_builder.load_configs fsys files = utilities.load_configs fsys files)
  ∧ config_builder.ConfigSet.config_set = ChimeraForm.chimera_form
  ∧ config_builder.ConfigSet.config_set = "local"
  ∧ (∀ cls (decl : Option PyValue) reg (fsys : FS) cset ov,
      config_builder.load_config cls decl reg fsys cset ov
        = chimera_conf.manifest cls decl reg fsys cset ov) := by
  refine ⟨cb_merge_dicts_eq, fun _ _ => rfl, cb_load_configs_eq, rfl, rfl, ?_⟩
  intro cls decl reg fsys cset ov
  have hcf : config_builder.config_files = chimera_conf.config_files := rfl
  simp only [config_builder.load_config, chimera_conf.manifest, hcf]
  cases ov <;> simp [cb_pipeline_tail_eq]

theorem lookupCell_setCell_ne (cs : List (Nat × List (String × HVal))) (b a : Nat)
    (es : List (String × HVal)) (hne : a ≠ b) :
    lookupCell (setCell cs b es) a = lookupCell cs a := by
  induction cs with
  | nil => simp [setCell]
  | cons hd tl ih =>
    obtain ⟨a', es'⟩ := hd
    by_cases h' : a' = b
    · subst h'
      have hba : ¬(a' = a) := fun hh => hne hh.symm
      simp [setCell, lookupCell, hba]
    · simp [setCell, lookupCell, h', ih]

theorem heap_get_set_ne (h : Heap) (b : Nat) (es : List (String × HVal)) (a : Nat)
    (hne : a ≠ b) : (h.set b es).get a = h.get a :=
  lookupCell_setCell_ne h.cells b a es hne

theorem lookupCell_all {P : Nat × List (String × HVal) → Bool}
    {cs : List (Nat × List (String × HVal))} (hall : cs.all P = true)
    {a : Nat} {es : List (String × HVal)} (hget : lookupCell cs a = some es) :
    P (a, es) = true := by
  induction cs with
  | nil => simp [lookupCell] at hget
  | cons hd tl ih =>
    obtain ⟨a', es'⟩ := hd
    rw [List.all_cons, Bool.and_eq_true] at hall
    rw [lookupCell] at hget
    by_cases hh : a' = a
    · rw [if_pos hh] at hget
      cases hget
      subst hh
      exact hall.1
    · rw [if_neg hh] at hget
      exact ih hall.2 hget

theorem wfHeap_get {h : Heap} {a : Nat} {es : List (String × HVal)}
    (hwf : wfHeap h = true) (hget : h.get a = some es) :
    a < h.next ∧ es.all (fun kv => hvalOK h.next kv.2) = true := by
  have := lookupCell_all hwf hget
  simpa using this

/-- Frame property of the item loop: provided the merge at the smaller fuel
preserves all pre-existing cells, one pass of the loop over a fresh
accumulator (`N ≤ m`) preserves every cell below the boundary `N` and never
shrinks the allocation frontier. -/
theorem merge_items_heap_frame (fuel : Nat)
    (IH : ∀ (h : Heap) (b o : Nat) (h' : Heap) (r : Nat),
        merge_dicts_heap fuel h b o = some (h', r) →
        (∀ a, a < h.next → h'.get a = h.get a) ∧ h.next ≤ h'.next) :
    ∀ (items : List (String × HVal)) (h : Heap) (m N : Nat) (h' : Heap) (r : Nat),
      N ≤ h.next → N ≤ m →
      merge_items_heap fuel h m items = some (h', r) →
      (∀ a, a < N → h'.get a = h.get a) ∧ h.next ≤ h'.next := by
  intro items
  induction items with
  | nil =>
    intro h m N h' r hN hm hrun
    simp only [merge_items_heap, Option.some_inj, Prod.mk.injEq] at hrun
    obtain ⟨hh, _⟩ := hrun
    subst hh
    exact ⟨fun a _ => rfl, Nat.le_refl _⟩
  | cons item rest ih =>
    obtain ⟨overlay_key, overlay_value⟩ := item
    intro h m N h' r hN hm hrun
    have hne_of_lt : ∀ a, a < N → a ≠ m :=
      fun a ha => Nat.ne_of_lt (Nat.lt_of_lt_of_le ha hm)
    simp only [merge_items_heap] at hrun
    cases hg : h.get m with
    | none =>
      simp only [hg] at hrun
      exact Option.noConfusion hrun
    | some me =>
      simp only [hg] at hrun
      cases hlk : lookupHVal me overlay_key with
      | none =>
        simp only [hlk] at hrun
        have hrec := ih (h.set m (me ++ [(overlay_key, overlay_value)])) m N h' r
          hN hm hrun
        refine ⟨fun a ha => ?_, hrec.2⟩
        rw [hrec.1 a ha, heap_get_set_ne h m _ a (hne_of_lt a ha)]
      | some hv =>
        cases hv with
        | scalar sv =>
          simp only [hlk] at hrun
          have hrec := ih (h.set m (setHKey me overlay_key overlay_value)) m N h' r
            hN hm hrun
          refine ⟨fun a ha => ?_, hrec.2⟩
          rw [hrec.1 a ha, heap_get_set_ne h m _ a (hne_of_lt a ha)]
        | ref base_addr =>
          cases overlay_value with
          | scalar ov =>
            simp only [hlk] at hrun
            have hrec := ih (h.set m (setHKey me overlay_key (HVal.scalar ov))) m N h' r
              hN hm hrun
            refine ⟨fun a ha => ?_, hrec.2⟩
            rw [hrec.1 a ha, heap_get_set_ne h m _ a (hne_of_lt a ha)]
          | ref overlay_addr =>
            simp only [hlk] at hrun
            cases hmg : merge_dicts_heap fuel h base_addr overlay_addr with
            | none =>
              simp only [hmg] at hrun
              exact Option.noConfusion hrun
            | some pr =>
              obtain ⟨h2, sub⟩ := pr
              simp only [hmg] at hrun
              cases hg2 : h2.get m with
              | none =>
                simp only [hg2] at hrun
                exact Option.noConfusion hrun
              | some me2 =>
                simp only [hg2] at hrun
                obtain ⟨hfr2, hnx2⟩ := IH h base_addr overlay_addr h2 sub hmg
                have hrec := ih (h2.set m (setHKey me2 overlay_key (HVal.ref sub)))
                  m N h' r (Nat.le_trans hN hnx2) hm hrun
                refine ⟨fun a ha => ?_, Nat.le_trans hnx2 hrec.2⟩
                rw [hrec.1 a ha, heap_get_set_ne h2 m _ a (hne_of_lt a ha),
                  hfr2 a (Nat.lt_of_lt_of_le ha hN)]

/-- Frame property of the heap-level merge: every cell allocated before the
call is untouched by it, and the allocation frontier only grows. -/
theorem merge_dicts_heap_frame :
    ∀ (fuel : Nat) (h : Heap) (b o : Nat) (h' : Heap) (r : Nat),
      merge_dicts_heap fuel h b o = some (h', r) →
      (∀ a, a < h.next → h'.get a = h.get a) ∧ h.next ≤ h'.next := by
  intro fuel
  induction fuel with
  | zero =>
    intro h b o h' r hrun
    simp [merge_dicts_heap] at hrun
  | succ fuel ih =>
    intro h b o h' r hrun
    simp only [merge_dicts_heap] at hrun
    cases hb : h.get b with
    | none =>
      simp only [hb] at hrun
      exact Option.noConfusion hrun
    | some be =>
      cases ho : h.get o with
      | none =>
        simp only [hb, ho] at hrun
        exact Option.noConfusion hrun
      | some oe =>
        simp only [hb, ho, Heap.alloc] at hrun
        have hfr := merge_items_heap_frame fuel ih oe
          ⟨(h.next, be) :: h.cells, h.next + 1⟩ h.next h.next h' r
          (Nat.le_succ _) (Nat.le_refl _) hrun
        refine ⟨fun a ha => ?_, ?_⟩
        · rw [hfr.1 a ha]
          show lookupCell ((h.next, be) :: h.cells) a = lookupCell h.cells a
          have hna : ¬(h.next = a) := by omega
          simp [lookupCell, hna]
        · have h1 : h.next + 1 ≤ h'.next := hfr.2
          omega

/-- Reading entries is unchanged between two heaps that agree below the
boundary, provided every reference in the entries stays below it. -/
theorem read_entries_agrees (h h' : Heap)
    (fuel : Nat)
    (ihd : ∀ addr, addr < h.next → read_dict fuel h' addr = read_dict fuel h addr) :
    ∀ es : List (String × HVal), es.all (fun kv => hvalOK h.next kv.2) = true →
      read_entries fuel h' es = read_entries fuel h es := by
  intro es
  induction es with
  | nil => intro _; simp [read_entries]
  | cons kv rest ih =>
    intro hall
    obtain ⟨k, v⟩ := kv
    rw [List.all_cons, Bool.and_eq_true] at hall
    cases v with
    | scalar sv =>
      simp only [read_entries]
      rw [ih hall.2]
    | ref a =>
      have ha : a < h.next := by simpa [hvalOK] using hall.1
      simp only [read_entries]
      rw [ih hall.2, ihd a ha]

/-- Reading a pre-existing dict back is unchanged between two heaps that
agree below the allocation boundary of a well-formed heap. -/
theorem read_dict_agrees (h h' : Heap)
    (hframe : ∀ a, a < h.next → h'.get a = h.get a) (hwf : wfHeap h = true) :
    ∀ (fuel : Nat) (addr : Nat), addr < h.next →
      read_dict fuel h' addr = read_dict fuel h addr := by
  intro fuel
  induction fuel with
  | zero => intro addr _; simp [read_dict]
  | succ fuel ih =>
    intro addr haddr
    simp only [read_dict]
    rw [hframe addr haddr]
    cases hes : h.get addr with
    | none => simp only [hes]
    | some es =>
      simp only [hes]
      rw [read_entries_agrees h h' fuel ih es (wfHeap_get hwf hes).2]

/-- Claim C9: `_merge_dicts base overlay` never mutates its base argument nor
any dict nested inside it: every dict object that existed before the call —
the base and everything reachable from it included — holds exactly the same
entries afterwards, so reading the base back from the heap yields the same
structure as before the call and the caller may continue to use the original
base. -/
theorem merge_dicts_no_mutation (fuel : Nat) (h : Heap) (base overlay : Nat)
    (h' : Heap) (result : Nat)
    (hrun : merge_dicts_heap fuel h base overlay = some (h', result)) :
    (∀ a, a < h.next → Heap.get h' a = Heap.get h a)
  ∧ (wfHeap h = true →
      ∀ readFuel, read_dict readFuel h' base = read_dict readFuel h base) := by
  obtain ⟨hframe, hnext⟩ := merge_dicts_heap_frame fuel h base overlay h' result hrun
  refine ⟨hframe, fun hwf readFuel => ?_⟩
  have hbase : ∃ be, h.get base = some be := by
    cases fuel with
    | zero => simp [merge_dicts_heap] at hrun
    | succ fuel =>
      simp only [merge_dicts_heap] at hrun
      cases hb : h.get base with
      | none =>
        simp only [hb] at hrun
        exact Option.noConfusion hrun
      | some be => exact ⟨be, rfl⟩
  obtain ⟨be, hb⟩ := hbase
  exact read_dict_agrees h h' hframe hwf readFuel base (wfHeap_get hwf hb).1

/-- Concrete instance of Claim C9's theorem: merging the dict at address 0
(`{x: 1}`) with the dict at address 1 (`{y: 2}`) allocates the result at
address 2 and leaves both pre-existing objects untouched. -/
theorem merge_dicts_no_mutation_witness :
    (∀ a, a < (Heap.mk [(0, [("x", HVal.scalar (Val.vint 1))]),
          (1, [("y", HVal.scalar (Val.vint 2))])] 2).next →
        Heap.get (Heap.mk [(2, [("x", HVal.scalar (Val.vint 1)),
              ("y", HVal.scalar (Val.vint 2))]),
            (0, [("x", HVal.scalar (Val.vint 1))]),
            (1, [("y", HVal.scalar (Val.vint 2))])] 3) a
          = Heap.get (Heap.mk [(0, [("x", HVal.scalar (Val.vint 1))]),
              (1, [("y", HVal.scalar (Val.vint 2))])] 2) a)
  ∧ (wfHeap (Heap.mk [(0, [("x", HVal.scalar (Val.vint 1))]),
        (1, [("y", HVal.scalar (Val.vint 2))])] 2) = true →
      ∀ readFuel,
        read_dict readFuel (Heap.mk [(2, [("x", HVal.scalar (Val.vint 1)),
              ("y", HVal.scalar (Val.vint 2))]),
            (0, [("x", HVal.scalar (Val.vint 1))]),
            (1, [("y", HVal.scalar (Val.vint 2))])] 3) 0
          = read_dict readFuel (Heap.mk [(0, [("x", HVal.scalar (Val.vint 1))]),
              (1, [("y", HVal.scalar (Val.vint 2))])] 2) 0) :=
  merge_dicts_no_mutation 2
    (Heap.mk [(0, [("x", HVal.scalar (Val.vint 1))]),
      (1, [("y", HVal.scalar (Val.vint 2))])] 2) 0 1
    (Heap.mk [(2, [("x", HVal.scalar (Val.vint 1)), ("y", HVal.scalar (Val.vint 2))]),
      (0, [("x", HVal.scalar (Val.vint 1))]),
      (1, [("y", HVal.scalar (Val.vint 2))])] 3) 2
    (by simp [merge_dicts_heap, merge_items_heap, Heap.get, Heap.alloc, Heap.set,
      lookupCell, lookupHVal, setHKey, setCell])

end Chimera
